import Mathlib

/-!
Shallow embedding of `gen_emoji_lexicon` from
`src/scribe_data/extract_transform/process_unicode.py`.

The function builds a Python dict mapping lowercase single-word keywords to
lists of emoji suggestion records.  Python dicts are modelled as
insertion-ordered association lists; the ambient Unicode/emoji facts the
function consults (the `emoji` package's `EMOJI_DATA`, the ICU modifier-base
property, and the byte-encoded ignore set) are abstracted into an environment
record; the data files it reads (the rank TSV, the two CLDR annotation JSONs,
the nouns JSON) are passed in directly as already-parsed values.
-/

/-- One suggestion record appended to a keyword's list:
`{"emoji": cldr_char, "is_base": has_modifier_base, "rank": emoji_rank}`,
where `emoji_rank = popularity_dict.get(cldr_char)` may be `None`. -/
structure EmojiEntry where
  emoji : String
  is_base : Bool
  rank : Option Nat
deriving Repr, DecidableEq

/-- A Python `dict` with string keys: an insertion-ordered association list. -/
abbrev PyDict (α : Type) := List (String × α)

/-- Python `k in d`. -/
def PyDict.hasKey {α : Type} (d : PyDict α) (k : String) : Bool :=
  d.any (fun p => p.1 == k)

/-- Python `d.get(k)` / `d[k]`: the value at the first (hence only) binding. -/
def PyDict.get? {α : Type} (d : PyDict α) (k : String) : Option α :=
  (d.find? (fun p => p.1 == k)).map (fun p => p.2)

/-- Python `d[k] = v`: overwrite in place when the key exists, otherwise
append the new binding at the end. -/
def PyDict.set {α : Type} (d : PyDict α) (k : String) (v : α) : PyDict α :=
  if PyDict.hasKey d k then d.map (fun p => if p.1 == k then (p.1, v) else p)
  else d ++ [(k, v)]

/-- Python `d.setdefault(k, []).append(e)`: append `e` to the list bound to
`k`, first inserting `k ↦ []` at the end when `k` is absent. -/
def PyDict.setdefaultAppend {α : Type} (d : PyDict (List α)) (k : String) (e : α) :
    PyDict (List α) :=
  if PyDict.hasKey d k then
    d.map (fun p => if p.1 == k then (p.1, p.2 ++ [e]) else p)
  else d ++ [(k, [e])]

/-- The ambient Unicode/emoji facts consulted per character. -/
structure UnicodeEnv where
  /-- `emoji.EMOJI_DATA`: `none` when the character is not in the table,
  otherwise its `"status"` field. -/
  emojiStatus : String → Option Nat
  /-- The constant `emoji.STATUS["fully_qualified"]`. -/
  fullyQualified : Nat
  /-- `cldr_char.encode("utf-8") in emoji_codes_to_ignore`; UTF-8 encoding is
  injective, so membership of the byte string is a predicate on the character. -/
  ignoreCode : String → Bool
  /-- `Char.hasBinaryProperty(cldr_char, UProperty.EMOJI_MODIFIER_BASE)`. -/
  hasModifierBase : String → Bool

/-- The dynamic type of the `ignore_keywords` argument: a single string, a
list of strings, or anything else (`None`, a tuple, a set, ...). -/
inductive IgnoreKeywords where
  | str (s : String)
  | list (l : List String)
  | other
deriving Repr, DecidableEq

/-- Python `str.lower()`, character by character.  (Lean's `Char.toLower`
covers the ASCII range; the claims only exercise ASCII keywords.) -/
def pyLower (s : String) : String :=
  ⟨s.data.map Char.toLower⟩

/-- The `keywords_to_ignore` normalization at the top of `gen_emoji_lexicon`:
wrap a string, keep a list, default anything else to `[]`, then lowercase. -/
def keywordsToIgnore (ignore_keywords : IgnoreKeywords) : List String :=
  (match ignore_keywords with
    | .str s => [s]
    | .list l => l
    | .other => []).map pyLower

/-- Python truthiness of an `int`-or-`None` parameter: `None` and `0` are
falsy, any other natural number is truthy. -/
def optTruthy : Option Nat → Bool
  | none => false
  | some n => n != 0

/-- The `num_emojis` skip test on a rank:
`emoji_rank is None or emoji_rank > num_emojis`. -/
def rankFails (num_emojis : Option Nat) (emoji_rank : Option Nat) : Bool :=
  match emoji_rank with
  | none => true
  | some r => decide (r > num_emojis.getD 0)

/-- Python `str.split()` with no argument: the whitespace-separated words of
the string, with empty fragments dropped. -/
def pySplit (s : String) : List String :=
  ((s.data.splitOnP Char.isWhitespace).filter (fun w => !w.isEmpty)).map
    (fun w => ⟨w⟩)

/-- One CLDR annotation source, in file order:
`cldr_char ↦ cldr_dict[cldr_char]["default"]` (only the `"default"` phrase
list of each character is read by the function). -/
abbrev CldrSource := List (String × List String)

/-- The body of the per-character loop of `gen_emoji_lexicon`: the membership
and ignore-set test, the `num_emojis` rank filter, the multi-scalar
modifier-base skip, the fully-qualified gate, and the keyword-extraction loop
over the `"default"` annotations. -/
def processCldrChar (env : UnicodeEnv) (popularity_dict : String → Option Nat)
    (num_emojis : Option Nat) (keywords_to_ignore : List String)
    (keyword_dict : PyDict (List EmojiEntry)) (cldr_char : String)
    (defaults : List String) : PyDict (List EmojiEntry) :=
  if (env.emojiStatus cldr_char).isSome && !env.ignoreCode cldr_char then
    let emoji_rank := popularity_dict cldr_char
    if optTruthy num_emojis && rankFails num_emojis emoji_rank then
      keyword_dict
    else
      let has_modifier_base := env.hasModifierBase cldr_char
      if has_modifier_base && cldr_char.length > 1 then
        keyword_dict
      else if env.emojiStatus cldr_char == some env.fullyQualified then
        defaults.foldl (fun d emoji_keyword =>
          let emoji_keyword := pyLower emoji_keyword
          if (pySplit emoji_keyword).length == 1 &&
              !keywords_to_ignore.contains emoji_keyword then
            PyDict.setdefaultAppend d emoji_keyword
              ⟨cldr_char, has_modifier_base, emoji_rank⟩
          else d) keyword_dict
      else keyword_dict
  else keyword_dict

/-- The loop over one CLDR annotation file. -/
def processCldrSource (env : UnicodeEnv) (popularity_dict : String → Option Nat)
    (num_emojis : Option Nat) (keywords_to_ignore : List String)
    (keyword_dict : PyDict (List EmojiEntry)) (src : CldrSource) :
    PyDict (List EmojiEntry) :=
  src.foldl
    (fun d p => processCldrChar env popularity_dict num_emojis keywords_to_ignore
      d p.1 p.2) keyword_dict

/-- `plurals_to_singulars_dict`: the dict comprehension over the nouns file,
`noun_data[row]["plural"].lower() ↦ row.lower()` skipping the `"isPlural"`
sentinel rows; a duplicate plural key overwrites (Python dict semantics).
`noun_data` is the row order of the file, paired with each row's `"plural"`. -/
def plurals_to_singulars_dict (noun_data : List (String × String)) : PyDict String :=
  noun_data.foldl
    (fun d p =>
      if p.2 != "isPlural" then PyDict.set d (pyLower p.2) (pyLower p.1) else d)
    []

/-- The plural-linkage loop: for each `(plural, singular)` pair, when the
plural is not yet a key and the singular is, bind the plural to the
singular's list. -/
def linkPlurals (plurals : PyDict String) (keyword_dict : PyDict (List EmojiEntry)) :
    PyDict (List EmojiEntry) :=
  plurals.foldl
    (fun d ps =>
      if PyDict.hasKey d ps.1 then d
      else
        match PyDict.get? d ps.2 with
        | some v => d ++ [(ps.1, v)]
        | none => d)
    keyword_dict

/-- The sort key comparison induced by
`float("inf") if suggestion["rank"] is None else suggestion["rank"]`:
ascending rank with `None` above every finite rank. -/
def rankLE (a b : EmojiEntry) : Bool :=
  match a.rank, b.rank with
  | _, none => true
  | none, some _ => false
  | some x, some y => x ≤ y

/-- `rankLE` as a decidable relation, for `List.insertionSort`. -/
def rankLEP (a b : EmojiEntry) : Prop :=
  rankLE a b = true

instance : DecidableRel rankLEP :=
  fun a b => instDecidableEqBool (rankLE a b) true

instance : IsTotal EmojiEntry rankLEP where
  total a b := by
    cases ha : a.rank <;> cases hb : b.rank <;>
      simp [rankLEP, rankLE, ha, hb] <;> omega

instance : IsTrans EmojiEntry rankLEP where
  trans a b c := by
    cases ha : a.rank <;> cases hb : b.rank <;> cases hc : c.rank <;>
      simp [rankLEP, rankLE, ha, hb, hc] <;> omega

/-- The final pass over the dict values: stable-sort each list by rank and,
when `emojis_per_keyword` is truthy and the list is longer, truncate it.
Python's `list.sort` with this key is a stable sort by the total preorder
`rankLEP`; stable sorting by a total preorder has a unique result, and
insertion sort by the non-strict order computes it.
(The source sorts the lists in place; a list aliased between a plural and its
singular is then visited twice, which is idempotent, so mapping over the
bindings is equivalent.) -/
def sortAndTruncate (emojis_per_keyword : Option Nat)
    (keyword_dict : PyDict (List EmojiEntry)) : PyDict (List EmojiEntry) :=
  keyword_dict.map (fun p =>
    let emojis := p.2.insertionSort rankLEP
    (p.1,
      if optTruthy emojis_per_keyword &&
          emojis.length > emojis_per_keyword.getD 0 then
        emojis.take (emojis_per_keyword.getD 0)
      else emojis))

/-- The returned dictionary: full `{"emoji", "is_base", "rank"}` records when
`export_base_rank` is true, otherwise each record reduced to `{"emoji"}`. -/
inductive Lexicon where
  | full (keyword_dict : PyDict (List EmojiEntry))
  | emojiOnly (keyword_dict : PyDict (List String))
deriving Repr, DecidableEq

/-- The keyword dict of `gen_emoji_lexicon` just before the sort pass:
both CLDR sources folded into one accumulating dict, then plural linkage. -/
def preSortDict (env : UnicodeEnv) (popularity_dict : String → Option Nat)
    (annotations annotationsDerived : CldrSource)
    (noun_data : List (String × String)) (num_emojis : Option Nat)
    (ignore_keywords : IgnoreKeywords) : PyDict (List EmojiEntry) :=
  linkPlurals (plurals_to_singulars_dict noun_data)
    ([annotations, annotationsDerived].foldl
      (processCldrSource env popularity_dict num_emojis
        (keywordsToIgnore ignore_keywords)) [])

/-- `gen_emoji_lexicon`.  Path resolution and file I/O are abstracted:
`popularity_dict` is the parsed `2021_ranked.tsv` table, `annotations` and
`annotationsDerived` the two per-language CLDR dicts in the order the source
iterates them, `noun_data` the rows of `nouns.json` paired with their
`"plural"` field.  `verbose` only gates the progress bar and a count print in
the source, and the `update_local_data` writes do not affect the returned
dict, so neither touches the result. -/
def gen_emoji_lexicon (env : UnicodeEnv) (popularity_dict : String → Option Nat)
    (annotations annotationsDerived : CldrSource)
    (noun_data : List (String × String))
    (num_emojis : Option Nat) (emojis_per_keyword : Option Nat)
    (ignore_keywords : IgnoreKeywords)
    (export_base_rank : Bool) (verbose : Bool) : Lexicon :=
  let keyword_dict := sortAndTruncate emojis_per_keyword
    (preSortDict env popularity_dict annotations annotationsDerived noun_data
      num_emojis ignore_keywords)
  if export_base_rank then Lexicon.full keyword_dict
  else Lexicon.emojiOnly (keyword_dict.map (fun p => (p.1, p.2.map (fun e => e.emoji))))

/-- A small concrete environment for witnesses: every character is in
`EMOJI_DATA` with the fully-qualified status, nothing is ignored, nothing is
a modifier base. -/
def testEnv : UnicodeEnv where
  emojiStatus := fun _ => some 2
  fullyQualified := 2
  ignoreCode := fun _ => false
  hasModifierBase := fun _ => false

/-- A small concrete rank table for witnesses. -/
def testPop : String → Option Nat :=
  fun c => if c == "😀" then some 1 else if c == "😺" then some 50 else none

/-- A small concrete CLDR annotation source for witnesses. -/
def testAnnotations : CldrSource :=
  [("🙀", ["cat"]), ("😺", ["cat", "happy"]), ("😀", ["happy", "grinning face"])]

/-- The keys of the returned dictionary, in insertion order. -/
def Lexicon.keys : Lexicon → List String
  | .full t => t.map Prod.fst
  | .emojiOnly t => t.map Prod.fst

/-- The conjunction of the five per-character filters of `gen_emoji_lexicon`:
presence in `emoji.EMOJI_DATA`, encoding not in the ignore set, passing the
optional `num_emojis` rank filter, not a multi-scalar modifier-base sequence,
and fully-qualified status. -/
def passesFilters (env : UnicodeEnv) (popularity_dict : String → Option Nat)
    (num_emojis : Option Nat) (c : String) : Bool :=
  (env.emojiStatus c).isSome && !env.ignoreCode c &&
    (!optTruthy num_emojis ||
      (match popularity_dict c with
        | some r => decide (r ≤ num_emojis.getD 0)
        | none => false)) &&
    !(env.hasModifierBase c && decide (c.length > 1)) &&
    (env.emojiStatus c == some env.fullyQualified)

/-- An environment for the C6 witness in which only `😀` is in `EMOJI_DATA`. -/
def testEnv6 : UnicodeEnv where
  emojiStatus := fun c => if c == "😀" then some 2 else none
  fullyQualified := 2
  ignoreCode := fun _ => false
  hasModifierBase := fun _ => false

/-- Every entry of every list bound in the dict satisfies `P`. -/
def DictEntriesP (P : EmojiEntry → Prop) (d : PyDict (List EmojiEntry)) : Prop :=
  ∀ k es, (k, es) ∈ d → ∀ e ∈ es, P e

/-- Every key of the dict satisfies `Q`. -/
def DictKeysP (Q : String → Prop) (d : PyDict (List EmojiEntry)) : Prop :=
  ∀ k, k ∈ d.map Prod.fst → Q k

/-! ### Basic lemmas about the Python-dict model -/

theorem foldl_inv {α β : Type} {f : β → α → β} {P : β → Prop}
    (h : ∀ b a, P b → P (f b a)) :
    ∀ (l : List α) (b : β), P b → P (List.foldl f b l)
  | [], _, hb => hb
  | _ :: l, b, hb => foldl_inv h l _ (h b _ hb)

theorem PyDict.hasKey_iff {α : Type} {d : PyDict α} {k : String} :
    PyDict.hasKey d k = true ↔ ∃ v, (k, v) ∈ d := by
  unfold PyDict.hasKey
  rw [List.any_eq_true]
  constructor
  · rintro ⟨⟨k', v⟩, hm, hbeq⟩
    obtain rfl : k' = k := by simpa using hbeq
    exact ⟨v, hm⟩
  · rintro ⟨v, hm⟩
    exact ⟨(k, v), hm, by simp⟩

theorem PyDict.get?_isSome_iff {α : Type} {d : PyDict α} {k : String} :
    (PyDict.get? d k).isSome = true ↔ PyDict.hasKey d k = true := by
  unfold PyDict.get? PyDict.hasKey
  rw [List.any_eq_true]
  cases hf : List.find? (fun p => p.1 == k) d with
  | none =>
    simp only [Option.map_none', Option.isSome_none]
    constructor
    · intro h
      exact Bool.noConfusion h
    · rintro ⟨p, hp, hbeq⟩
      exact absurd hbeq (List.find?_eq_none.1 hf p hp)
  | some p =>
    simp only [Option.map_some', Option.isSome_some, true_iff]
    refine ⟨p, List.mem_of_find?_eq_some hf, ?_⟩
    have := List.find?_some hf
    exact this

theorem PyDict.get?_mem {α : Type} {d : PyDict α} {k : String} {v : α}
    (h : PyDict.get? d k = some v) : (k, v) ∈ d := by
  unfold PyDict.get? at h
  cases hf : List.find? (fun p => p.1 == k) d with
  | none => rw [hf] at h; cases h
  | some p =>
    rw [hf] at h
    obtain rfl : p.2 = v := by simpa using h
    have hm := List.mem_of_find?_eq_some hf
    have hk' := List.find?_some hf
    have hk : p.1 = k := by simpa using hk'
    obtain ⟨p1, p2⟩ := p
    subst hk
    exact hm

theorem PyDict.get?_append_left {α : Type} {d e : PyDict α} {k : String}
    (h : PyDict.hasKey d k = true) :
    PyDict.get? (d ++ e) k = PyDict.get? d k := by
  unfold PyDict.hasKey at h
  have hs : (List.find? (fun p => p.1 == k) d).isSome = true := by
    rw [List.find?_isSome]
    obtain ⟨p, hp, hbeq⟩ := List.any_eq_true.1 h
    exact ⟨p, hp, hbeq⟩
  simp only [PyDict.get?, List.find?_append, Option.or_of_isSome hs]

theorem PyDict.get?_append_new {α : Type} {d : PyDict α} {k : String} {v : α}
    (h : PyDict.hasKey d k = false) :
    PyDict.get? (d ++ [(k, v)]) k = some v := by
  have : List.find? (fun p => p.1 == k) d = none := by
    rw [List.find?_eq_none]
    intro p hp hbeq
    rw [Bool.eq_false_iff] at h
    exact h (by simpa only [PyDict.hasKey, List.any_eq_true] using ⟨p, hp, hbeq⟩)
  simp [PyDict.get?, List.find?_append, this]

theorem PyDict.hasKey_append {α : Type} {d e : PyDict α} {k : String} :
    PyDict.hasKey (d ++ e) k = (PyDict.hasKey d k || PyDict.hasKey e k) := by
  simp [PyDict.hasKey, List.any_append]

/-! ### The rank order and stable sorting -/

theorem rankLEP_refl_of_eq {a b : EmojiEntry} (h : a.rank = b.rank) : rankLEP a b := by
  cases hb : b.rank <;> simp [rankLEP, rankLE, h, hb]

/-- Stability of the sort pass, phrased via filters: the entries of any fixed
rank appear in the sorted list exactly as they appear in the input. -/
theorem filter_insertionSort_rank (l : List EmojiEntry) (r : Option Nat) :
    (l.insertionSort rankLEP).filter (fun e => e.rank == r)
      = l.filter (fun e => e.rank == r) := by
  have hpair : (l.filter (fun e => e.rank == r)).Pairwise rankLEP := by
    refine List.pairwise_of_forall_mem_list ?_
    intro a ha b hb
    have ha' : a.rank = r := by simpa using (List.mem_filter.1 ha).2
    have hb' : b.rank = r := by simpa using (List.mem_filter.1 hb).2
    exact rankLEP_refl_of_eq (ha'.trans hb'.symm)
  have hsub : List.Sublist (l.filter (fun e => e.rank == r))
      (l.insertionSort rankLEP) :=
    List.sublist_insertionSort hpair (List.filter_sublist l)
  have hsub2 : List.Sublist (l.filter (fun e => e.rank == r))
      ((l.insertionSort rankLEP).filter (fun e => e.rank == r)) := by
    have := hsub.filter (fun e => e.rank == r)
    simpa [List.filter_filter] using this
  have hlen : ((l.insertionSort rankLEP).filter (fun e => e.rank == r)).length
      = (l.filter (fun e => e.rank == r)).length :=
    ((List.perm_insertionSort rankLEP l).filter (fun e => e.rank == r)).length_eq
  exact (hsub2.eq_of_length hlen.symm).symm

/-! ### Entry invariants through the pipeline -/

theorem setdefaultAppend_entriesP {P : EmojiEntry → Prop}
    {d : PyDict (List EmojiEntry)} {k : String} {e : EmojiEntry}
    (hd : DictEntriesP P d) (he : P e) :
    DictEntriesP P (PyDict.setdefaultAppend d k e) := by
  intro k' es' hm e' he'
  unfold PyDict.setdefaultAppend at hm
  by_cases hk : PyDict.hasKey d k = true
  · rw [if_pos hk] at hm
    obtain ⟨⟨k0, es0⟩, hm0, heq⟩ := List.mem_map.1 hm
    dsimp only at heq
    by_cases hkk : (k0 == k) = true
    · rw [if_pos hkk, Prod.mk.injEq] at heq
      obtain ⟨rfl, rfl⟩ := heq
      rcases List.mem_append.1 he' with h | h
      · exact hd k0 es0 hm0 e' h
      · obtain rfl : e' = e := by simpa using h
        exact he
    · rw [if_neg hkk, Prod.mk.injEq] at heq
      obtain ⟨rfl, rfl⟩ := heq
      exact hd k0 es0 hm0 e' he'
  · rw [if_neg hk] at hm
    rcases List.mem_append.1 hm with h | h
    · exact hd k' es' h e' he'
    · obtain ⟨rfl, rfl⟩ : k' = k ∧ es' = [e] := by simpa using h
      obtain rfl : e' = e := by simpa using he'
      exact he

theorem processCldrChar_entriesP {env : UnicodeEnv}
    {pop : String → Option Nat} {ne : Option Nat} {ig : List String}
    {P : EmojiEntry → Prop} {d : PyDict (List EmojiEntry)} {c : String}
    {defs : List String} (hd : DictEntriesP P d)
    (hadd : passesFilters env pop ne c = true →
      P ⟨c, env.hasModifierBase c, pop c⟩) :
    DictEntriesP P (processCldrChar env pop ne ig d c defs) := by
  unfold processCldrChar
  dsimp only
  by_cases h1 : ((env.emojiStatus c).isSome && !env.ignoreCode c) = true
  case neg => rw [if_neg h1]; exact hd
  rw [if_pos h1]
  by_cases h2 : (optTruthy ne && rankFails ne (pop c)) = true
  case pos => rw [if_pos h2]; exact hd
  rw [if_neg h2]
  by_cases h3 : (env.hasModifierBase c && decide (c.length > 1)) = true
  case pos => rw [if_pos h3]; exact hd
  rw [if_neg h3]
  by_cases h4 : (env.emojiStatus c == some env.fullyQualified) = true
  case neg => rw [if_neg h4]; exact hd
  rw [if_pos h4]
  have hpass : passesFilters env pop ne c = true := by
    unfold passesFilters
    simp only [Bool.and_eq_true] at h1 ⊢
    refine ⟨⟨⟨⟨h1.1, h1.2⟩, ?_⟩, ?_⟩, h4⟩
    · cases ht : optTruthy ne with
      | false => simp
      | true =>
        rw [ht, Bool.true_and] at h2
        cases hrk : pop c with
        | none => rw [hrk] at h2; simp [rankFails] at h2
        | some r =>
          rw [hrk] at h2
          simp only [rankFails, decide_eq_true_eq] at h2
          simp only [Bool.not_true, Bool.false_or, decide_eq_true_eq]
          omega
    · simp [Bool.eq_false_iff.2 h3]
  refine foldl_inv ?_ defs d hd
  intro d' kw hd'
  dsimp only
  split
  · exact setdefaultAppend_entriesP hd' (hadd hpass)
  · exact hd'

theorem processCldrSource_entriesP {env : UnicodeEnv}
    {pop : String → Option Nat} {ne : Option Nat} {ig : List String}
    {P : EmojiEntry → Prop} {d : PyDict (List EmojiEntry)} {src : CldrSource}
    (hd : DictEntriesP P d)
    (hadd : ∀ c, passesFilters env pop ne c = true →
      P ⟨c, env.hasModifierBase c, pop c⟩) :
    DictEntriesP P (processCldrSource env pop ne ig d src) := by
  unfold processCldrSource
  refine foldl_inv ?_ src d hd
  intro d' p hd'
  exact processCldrChar_entriesP hd' (hadd p.1)

theorem linkPlurals_entriesP {P : EmojiEntry → Prop} {pm : PyDict String}
    {d : PyDict (List EmojiEntry)} (hd : DictEntriesP P d) :
    DictEntriesP P (linkPlurals pm d) := by
  unfold linkPlurals
  refine foldl_inv ?_ pm d hd
  intro d' ps hd'
  dsimp only
  by_cases hk : PyDict.hasKey d' ps.1 = true
  · rw [if_pos hk]; exact hd'
  · rw [if_neg hk]
    cases hv : PyDict.get? d' ps.2 with
    | none => exact hd'
    | some v =>
      intro k es hm e he
      rcases List.mem_append.1 hm with h | h
      · exact hd' k es h e he
      · obtain ⟨h1, h2⟩ : k = ps.1 ∧ es = v := by simpa using h
        subst h1
        subst h2
        exact hd' ps.2 _ (PyDict.get?_mem hv) e he

theorem sortAndTruncate_mem {cap : Option Nat} {d : PyDict (List EmojiEntry)}
    {k : String} {es : List EmojiEntry} :
    (k, es) ∈ sortAndTruncate cap d ↔
      ∃ orig, (k, orig) ∈ d ∧
        es = if optTruthy cap &&
            (orig.insertionSort rankLEP).length > cap.getD 0 then
          (orig.insertionSort rankLEP).take (cap.getD 0)
        else orig.insertionSort rankLEP := by
  unfold sortAndTruncate
  rw [List.mem_map]
  constructor
  · rintro ⟨⟨k0, es0⟩, hm, heq⟩
    dsimp only at heq
    rw [Prod.mk.injEq] at heq
    obtain ⟨rfl, h2⟩ := heq
    exact ⟨es0, hm, h2.symm⟩
  · rintro ⟨orig, hm, heq⟩
    refine ⟨(k, orig), hm, ?_⟩
    dsimp only
    rw [Prod.mk.injEq]
    exact ⟨rfl, heq.symm⟩

theorem sortAndTruncate_entriesP {P : EmojiEntry → Prop} {cap : Option Nat}
    {d : PyDict (List EmojiEntry)} (hd : DictEntriesP P d) :
    DictEntriesP P (sortAndTruncate cap d) := by
  intro k es hm e he
  obtain ⟨orig, hmo, rfl⟩ := sortAndTruncate_mem.1 hm
  have h1 : e ∈ orig.insertionSort rankLEP := by
    split at he
    · exact List.mem_of_mem_take he
    · exact he
  exact hd k orig hmo e ((List.perm_insertionSort rankLEP orig).mem_iff.1 h1)

theorem preSortDict_entriesP {env : UnicodeEnv} {pop : String → Option Nat}
    {a ad : CldrSource} {nd : List (String × String)} {ne : Option Nat}
    {ig : IgnoreKeywords} {P : EmojiEntry → Prop}
    (hadd : ∀ c, passesFilters env pop ne c = true →
      P ⟨c, env.hasModifierBase c, pop c⟩) :
    DictEntriesP P (preSortDict env pop a ad nd ne ig) := by
  unfold preSortDict
  refine linkPlurals_entriesP ?_
  refine foldl_inv ?_ [a, ad] [] ?_
  · intro d src hd
    exact processCldrSource_entriesP hd hadd
  · intro k es hm
    cases hm

/-- With `export_base_rank = True` the returned table is the sorted and
truncated pre-sort dict. -/
theorem gen_full_eq {env : UnicodeEnv} {pop : String → Option Nat}
    {a ad : CldrSource} {nd : List (String × String)}
    {ne epk : Option Nat} {ig : IgnoreKeywords} {v : Bool}
    {t : PyDict (List EmojiEntry)}
    (h : gen_emoji_lexicon env pop a ad nd ne epk ig true v = Lexicon.full t) :
    t = sortAndTruncate epk (preSortDict env pop a ad nd ne ig) := by
  simp only [gen_emoji_lexicon, if_true, Lexicon.full.injEq] at h
  exact h.symm

theorem map_fst_sortAndTruncate {cap : Option Nat} {d : PyDict (List EmojiEntry)} :
    (sortAndTruncate cap d).map Prod.fst = d.map Prod.fst := by
  unfold sortAndTruncate
  rw [List.map_map]
  exact List.map_congr_left fun p _ => rfl

/-- The keys of the returned table are the keys of the pre-sort dict,
whatever `export_base_rank` is. -/
theorem gen_keys_eq {env : UnicodeEnv} {pop : String → Option Nat}
    {a ad : CldrSource} {nd : List (String × String)}
    {ne epk : Option Nat} {ig : IgnoreKeywords} {ebr v : Bool} :
    (gen_emoji_lexicon env pop a ad nd ne epk ig ebr v).keys
      = (preSortDict env pop a ad nd ne ig).map Prod.fst := by
  cases ebr
  · simp only [gen_emoji_lexicon, Bool.false_eq_true, if_false, Lexicon.keys]
    rw [List.map_map]
    have : (sortAndTruncate epk (preSortDict env pop a ad nd ne ig)).map
        Prod.fst = _ := map_fst_sortAndTruncate
    rw [← this]
    exact List.map_congr_left fun p _ => rfl
  · simp only [gen_emoji_lexicon, if_true, Lexicon.keys]
    exact map_fst_sortAndTruncate

/-- Filtering a prefix: `(l.take n).filter p` is the corresponding-length
prefix of `l.filter p`. -/
theorem filter_take_eq_take_filter (p : α → Bool) :
    ∀ (l : List α) (n : Nat),
      (l.take n).filter p = (l.filter p).take ((l.take n).filter p).length
  | _, 0 => by simp
  | [], _ + 1 => by simp
  | a :: l, n + 1 => by
    by_cases hpa : p a = true
    · simpa [List.filter_cons, hpa] using filter_take_eq_take_filter p l n
    · simpa [List.filter_cons, hpa] using filter_take_eq_take_filter p l n

/-! ### Claims -/

theorem take_length_take_eq {α : Type} (l : List α) (n : Nat) :
    l.take ((l.take n).length) = l.take n := by
  rw [List.length_take]
  rcases Nat.le_total n l.length with h | h
  · rw [Nat.min_eq_left h]
  · rw [Nat.min_eq_right h, List.take_length, List.take_of_length_le h]

theorem rankLEP_none {a b : EmojiEntry} (h : rankLEP a b) (ha : a.rank = none) :
    b.rank = none := by
  cases hb : b.rank with
  | none => rfl
  | some r =>
    unfold rankLEP rankLE at h
    rw [ha, hb] at h
    cases h

/-- C1: every keyword list returned by `gen_emoji_lexicon` is sorted by
non-decreasing rank, entries with an absent rank come strictly after entries
with a finite rank, and entries of equal rank (or both unranked) keep their
order in the pre-sort dict (the sort is stable). -/
theorem C1_keyword_lists_sorted_stable
    (env : UnicodeEnv) (pop : String → Option Nat) (a ad : CldrSource)
    (nd : List (String × String)) (ne epk : Option Nat) (ig : IgnoreKeywords)
    (v : Bool) (t : PyDict (List EmojiEntry))
    (h : gen_emoji_lexicon env pop a ad nd ne epk ig true v = Lexicon.full t)
    (k : String) (es : List EmojiEntry) (hmem : (k, es) ∈ t) :
    es.Pairwise rankLEP ∧
    es.Pairwise (fun e1 e2 => e1.rank = none → e2.rank = none) ∧
    ∃ orig, (k, orig) ∈ preSortDict env pop a ad nd ne ig ∧
      ∀ r : Option Nat,
        es.filter (fun e => e.rank == r)
          = (orig.filter (fun e => e.rank == r)).take
              ((es.filter (fun e => e.rank == r)).length) := by
  have ht := gen_full_eq h
  subst ht
  obtain ⟨orig, hmo, rfl⟩ := sortAndTruncate_mem.1 hmem
  have hex : ∃ m,
      (if optTruthy epk &&
          (orig.insertionSort rankLEP).length > epk.getD 0 then
        (orig.insertionSort rankLEP).take (epk.getD 0)
      else orig.insertionSort rankLEP)
        = (orig.insertionSort rankLEP).take m := by
    split
    · exact ⟨epk.getD 0, rfl⟩
    · exact ⟨(orig.insertionSort rankLEP).length,
        (List.take_length (orig.insertionSort rankLEP)).symm⟩
  obtain ⟨m, hm'⟩ := hex
  rw [hm']
  have hsorted : (orig.insertionSort rankLEP).Pairwise rankLEP :=
    List.sorted_insertionSort rankLEP orig
  have hpw : ((orig.insertionSort rankLEP).take m).Pairwise rankLEP :=
    hsorted.sublist (List.take_sublist m (orig.insertionSort rankLEP))
  refine ⟨hpw, hpw.imp (fun hab ha => rankLEP_none hab ha), orig, hmo, ?_⟩
  intro r
  rw [filter_take_eq_take_filter (fun e => e.rank == r)
    (orig.insertionSort rankLEP) m, filter_insertionSort_rank]
  exact (take_length_take_eq _ _).symm

/-- Witness for C1 at a concrete input. -/
theorem C1_witness :
    (gen_emoji_lexicon testEnv testPop testAnnotations [] [] none none .other
        true true
      = Lexicon.full
          [("cat", [⟨"😺", false, some 50⟩, ⟨"🙀", false, none⟩]),
            ("happy", [⟨"😀", false, some 1⟩, ⟨"😺", false, some 50⟩])]) ∧
    (("cat", [(⟨"😺", false, some 50⟩ : EmojiEntry), ⟨"🙀", false, none⟩])
        ∈ ([("cat", [⟨"😺", false, some 50⟩, ⟨"🙀", false, none⟩]),
            ("happy", [⟨"😀", false, some 1⟩, ⟨"😺", false, some 50⟩])] :
          PyDict (List EmojiEntry))) ∧
    (([⟨"😺", false, some 50⟩, ⟨"🙀", false, none⟩] :
        List EmojiEntry).Pairwise rankLEP ∧
      ([⟨"😺", false, some 50⟩, ⟨"🙀", false, none⟩] :
          List EmojiEntry).Pairwise
        (fun e1 e2 => e1.rank = none → e2.rank = none) ∧
      ∃ orig,
        ("cat", orig) ∈ preSortDict testEnv testPop testAnnotations [] [] none
          .other ∧
        ∀ r : Option Nat,
          ([⟨"😺", false, some 50⟩, ⟨"🙀", false, none⟩] :
              List EmojiEntry).filter (fun e => e.rank == r)
            = (orig.filter (fun e => e.rank == r)).take
                ((([⟨"😺", false, some 50⟩, ⟨"🙀", false, none⟩] :
                    List EmojiEntry).filter (fun e => e.rank == r)).length)) :=
  ⟨by decide, by decide,
    C1_keyword_lists_sorted_stable testEnv testPop testAnnotations [] [] none
      none .other true
      [("cat", [⟨"😺", false, some 50⟩, ⟨"🙀", false, none⟩]),
        ("happy", [⟨"😀", false, some 1⟩, ⟨"😺", false, some 50⟩])]
      (by decide) "cat" [⟨"😺", false, some 50⟩, ⟨"🙀", false, none⟩]
      (by decide)⟩

/-- C2: with a positive `emojis_per_keyword = k`, every returned keyword list
has length at most `k` and consists of exactly the first `k` entries of the
stable rank-sort of the keyword's pre-truncation list, so every kept entry
ranks no worse than every dropped entry. -/
theorem C2_per_keyword_cap
    (env : UnicodeEnv) (pop : String → Option Nat) (a ad : CldrSource)
    (nd : List (String × String)) (ne : Option Nat) (ig : IgnoreKeywords)
    (v : Bool) (t : PyDict (List EmojiEntry)) (kcap : Nat) (hk : 0 < kcap)
    (h : gen_emoji_lexicon env pop a ad nd ne (some kcap) ig true v
      = Lexicon.full t)
    (k : String) (es : List EmojiEntry) (hmem : (k, es) ∈ t) :
    es.length ≤ kcap ∧
    ∃ orig, (k, orig) ∈ preSortDict env pop a ad nd ne ig ∧
      es = (orig.insertionSort rankLEP).take kcap ∧
      ∀ e ∈ es, ∀ e' ∈ (orig.insertionSort rankLEP).drop kcap, rankLEP e e' := by
  have ht := gen_full_eq h
  subst ht
  obtain ⟨orig, hmo, rfl⟩ := sortAndTruncate_mem.1 hmem
  have hopt : optTruthy (some kcap) = true := by
    simp only [optTruthy, bne_iff_ne, ne_eq, decide_not]
    omega
  have heq : (if optTruthy (some kcap) &&
        (orig.insertionSort rankLEP).length > (some kcap).getD 0 then
      (orig.insertionSort rankLEP).take ((some kcap).getD 0)
    else orig.insertionSort rankLEP)
      = (orig.insertionSort rankLEP).take kcap := by
    simp only [hopt, Option.getD_some, Bool.true_and]
    split
    · rfl
    · next hcond =>
      have hle : (orig.insertionSort rankLEP).length ≤ kcap := by
        simpa using hcond
      exact (List.take_of_length_le hle).symm
  rw [heq]
  refine ⟨List.length_take_le kcap _, orig, hmo, rfl, ?_⟩
  intro e hx e' hy
  exact List.Sorted.rel_of_mem_take_of_mem_drop
    (List.sorted_insertionSort rankLEP orig) hx hy

/-- Witness for C2 at a concrete input with cap 1. -/
theorem C2_witness :
    0 < 1 ∧
    (gen_emoji_lexicon testEnv testPop testAnnotations [] [] none (some 1)
        .other true true
      = Lexicon.full
          [("cat", [⟨"😺", false, some 50⟩]),
            ("happy", [⟨"😀", false, some 1⟩])]) ∧
    (("cat", [(⟨"😺", false, some 50⟩ : EmojiEntry)])
        ∈ ([("cat", [⟨"😺", false, some 50⟩]),
            ("happy", [⟨"😀", false, some 1⟩])] :
          PyDict (List EmojiEntry))) ∧
    (([(⟨"😺", false, some 50⟩ : EmojiEntry)] : List EmojiEntry).length ≤ 1 ∧
      ∃ orig,
        ("cat", orig) ∈ preSortDict testEnv testPop testAnnotations [] [] none
          .other ∧
        [(⟨"😺", false, some 50⟩ : EmojiEntry)]
          = (orig.insertionSort rankLEP).take 1 ∧
        ∀ e ∈ [(⟨"😺", false, some 50⟩ : EmojiEntry)],
          ∀ e' ∈ (orig.insertionSort rankLEP).drop 1, rankLEP e e') :=
  ⟨by decide, by decide, by decide,
    C2_per_keyword_cap testEnv testPop testAnnotations [] [] none .other true
      [("cat", [⟨"😺", false, some 50⟩]), ("happy", [⟨"😀", false, some 1⟩])]
      1 (by decide) (by decide) "cat" [⟨"😺", false, some 50⟩] (by decide)⟩

/-- C3: with a positive `num_emojis = n`, every entry anywhere in the returned
table has a present rank that is at most `n`; in particular no unranked and no
rank-`> n` emoji appears, whether the keyword came from annotation data or
from plural linkage. -/
theorem C3_num_emojis_cap
    (env : UnicodeEnv) (pop : String → Option Nat) (a ad : CldrSource)
    (nd : List (String × String)) (epk : Option Nat) (ig : IgnoreKeywords)
    (v : Bool) (t : PyDict (List EmojiEntry)) (n : Nat) (hn : 0 < n)
    (h : gen_emoji_lexicon env pop a ad nd (some n) epk ig true v
      = Lexicon.full t)
    (k : String) (es : List EmojiEntry) (hmem : (k, es) ∈ t)
    (e : EmojiEntry) (he : e ∈ es) :
    ∃ r, e.rank = some r ∧ r ≤ n := by
  have ht := gen_full_eq h
  subst ht
  have hP : DictEntriesP (fun e => ∃ r, e.rank = some r ∧ r ≤ n)
      (sortAndTruncate epk (preSortDict env pop a ad nd (some n) ig)) := by
    refine sortAndTruncate_entriesP (preSortDict_entriesP ?_)
    intro c hpass
    unfold passesFilters at hpass
    simp only [Bool.and_eq_true] at hpass
    obtain ⟨⟨⟨_, hrank⟩, _⟩, _⟩ := hpass
    have hopt : optTruthy (some n) = true := by
      simp only [optTruthy, bne_iff_ne, ne_eq, decide_not]
      omega
    rw [hopt] at hrank
    simp only [Bool.not_true, Bool.false_or] at hrank
    cases hrk : pop c with
    | none => rw [hrk] at hrank; cases hrank
    | some r =>
      rw [hrk] at hrank
      simp only [decide_eq_true_eq] at hrank
      refine ⟨r, by simp [hrk], ?_⟩
      simpa using hrank
  exact hP k es hmem e he

/-- Witness for C3 at a concrete input with `num_emojis = 10`. -/
theorem C3_witness :
    0 < 10 ∧
    (gen_emoji_lexicon testEnv testPop testAnnotations [] [] (some 10) none
        .other true true
      = Lexicon.full [("happy", [⟨"😀", false, some 1⟩])]) ∧
    (("happy", [(⟨"😀", false, some 1⟩ : EmojiEntry)])
        ∈ ([("happy", [⟨"😀", false, some 1⟩])] : PyDict (List EmojiEntry))) ∧
    ((⟨"😀", false, some 1⟩ : EmojiEntry)
        ∈ [(⟨"😀", false, some 1⟩ : EmojiEntry)]) ∧
    (∃ r, (⟨"😀", false, some 1⟩ : EmojiEntry).rank = some r ∧ r ≤ 10) :=
  ⟨by decide, by decide, by decide, by decide,
    C3_num_emojis_cap testEnv testPop testAnnotations [] [] none .other true
      [("happy", [⟨"😀", false, some 1⟩])] 10 (by decide) (by decide)
      "happy" [⟨"😀", false, some 1⟩] (by decide)
      ⟨"😀", false, some 1⟩ (by decide)⟩

/-- C6: a character contributes keyword entries only if all five filters
pass; a character failing any one of them appears in no entry of the returned
table. -/
theorem C6_all_filters_required
    (env : UnicodeEnv) (pop : String → Option Nat) (a ad : CldrSource)
    (nd : List (String × String)) (ne epk : Option Nat) (ig : IgnoreKeywords)
    (v : Bool) (t : PyDict (List EmojiEntry)) (c : String)
    (h : gen_emoji_lexicon env pop a ad nd ne epk ig true v = Lexicon.full t)
    (hfail : passesFilters env pop ne c = false)
    (k : String) (es : List EmojiEntry) (hmem : (k, es) ∈ t)
    (e : EmojiEntry) (he : e ∈ es) :
    e.emoji ≠ c := by
  have ht := gen_full_eq h
  subst ht
  have hP : DictEntriesP (fun e => passesFilters env pop ne e.emoji = true)
      (sortAndTruncate epk (preSortDict env pop a ad nd ne ig)) :=
    sortAndTruncate_entriesP (preSortDict_entriesP (fun _ hp => hp))
  intro hcontra
  have hpassed := hP k es hmem e he
  dsimp only at hpassed
  rw [hcontra, hfail] at hpassed
  cases hpassed

/-- Witness for C6: `🚫` is not in `EMOJI_DATA` of `testEnv6`, so the single
entry of the output is not `🚫`. -/
theorem C6_witness :
    (gen_emoji_lexicon testEnv6 testPop [("😀", ["happy"]), ("🚫", ["stop"])]
        [] [] none none .other true true
      = Lexicon.full [("happy", [⟨"😀", false, some 1⟩])]) ∧
    passesFilters testEnv6 testPop none "🚫" = false ∧
    (("happy", [(⟨"😀", false, some 1⟩ : EmojiEntry)])
        ∈ ([("happy", [⟨"😀", false, some 1⟩])] : PyDict (List EmojiEntry))) ∧
    (⟨"😀", false, some 1⟩ : EmojiEntry)
        ∈ [(⟨"😀", false, some 1⟩ : EmojiEntry)] ∧
    (⟨"😀", false, some 1⟩ : EmojiEntry).emoji ≠ "🚫" :=
  ⟨by decide, by decide, by decide, by decide,
    C6_all_filters_required testEnv6 testPop
      [("😀", ["happy"]), ("🚫", ["stop"])] [] [] none none .other true
      [("happy", [⟨"😀", false, some 1⟩])] "🚫" (by decide) (by decide)
      "happy" [⟨"😀", false, some 1⟩] (by decide)
      ⟨"😀", false, some 1⟩ (by decide)⟩

/-- C8: the `verbose` flag only gates the progress bar and the printed count;
the returned table is identical for any two values of it. -/
theorem C8_verbose_no_effect
    (env : UnicodeEnv) (pop : String → Option Nat) (a ad : CldrSource)
    (nd : List (String × String)) (ne epk : Option Nat) (ig : IgnoreKeywords)
    (ebr v₁ v₂ : Bool) :
    gen_emoji_lexicon env pop a ad nd ne epk ig ebr v₁
      = gen_emoji_lexicon env pop a ad nd ne epk ig ebr v₂ := rfl

/-- C9: passing `0` for either cap is falsy in Python, so it disables the cap
exactly as `None` does: `num_emojis = 0` applies no rank filter and
`emojis_per_keyword = 0` truncates nothing. -/
theorem C9_zero_caps_disabled
    (env : UnicodeEnv) (pop : String → Option Nat) (a ad : CldrSource)
    (nd : List (String × String)) (ne epk : Option Nat) (ig : IgnoreKeywords)
    (ebr v : Bool) :
    gen_emoji_lexicon env pop a ad nd (some 0) epk ig ebr v
      = gen_emoji_lexicon env pop a ad nd none epk ig ebr v ∧
    gen_emoji_lexicon env pop a ad nd ne (some 0) ig ebr v
      = gen_emoji_lexicon env pop a ad nd ne none ig ebr v :=
  ⟨rfl, rfl⟩

/-- C10: an `ignore_keywords` argument that is neither a string nor a list is
treated as the empty ignore list. -/
theorem C10_other_ignore_is_empty
    (env : UnicodeEnv) (pop : String → Option Nat) (a ad : CldrSource)
    (nd : List (String × String)) (ne epk : Option Nat) (ebr v : Bool) :
    keywordsToIgnore .other = [] ∧
    gen_emoji_lexicon env pop a ad nd ne epk .other ebr v
      = gen_emoji_lexicon env pop a ad nd ne epk (.list []) ebr v :=
  ⟨rfl, rfl⟩

theorem linkPlurals_nil (d : PyDict (List EmojiEntry)) : linkPlurals [] d = d := rfl

theorem linkPlurals_cons (ps : String × String) (rest : PyDict String)
    (d : PyDict (List EmojiEntry)) :
    linkPlurals (ps :: rest) d
      = linkPlurals rest
          (if PyDict.hasKey d ps.1 then d
            else
              match PyDict.get? d ps.2 with
              | some v => d ++ [(ps.1, v)]
              | none => d) := rfl

theorem linkPlurals_hasKey_mono (pm : PyDict String) :
    ∀ (d : PyDict (List EmojiEntry)) (k : String),
      PyDict.hasKey d k = true → PyDict.hasKey (linkPlurals pm d) k = true := by
  induction pm with
  | nil => intro d k h; exact h
  | cons ps rest ih =>
    intro d k h
    rw [linkPlurals_cons]
    apply ih
    by_cases hk : PyDict.hasKey d ps.1 = true
    · rw [if_pos hk]; exact h
    · rw [if_neg hk]
      cases hv : PyDict.get? d ps.2 with
      | none => exact h
      | some v => rw [PyDict.hasKey_append, h, Bool.true_or]

theorem linkPlurals_get?_of_hasKey (pm : PyDict String) :
    ∀ (d : PyDict (List EmojiEntry)) (k : String),
      PyDict.hasKey d k = true →
      PyDict.get? (linkPlurals pm d) k = PyDict.get? d k := by
  induction pm with
  | nil => intro d k _; rfl
  | cons ps rest ih =>
    intro d k h
    rw [linkPlurals_cons]
    by_cases hk : PyDict.hasKey d ps.1 = true
    · rw [if_pos hk]; exact ih d k h
    · rw [if_neg hk]
      cases hv : PyDict.get? d ps.2 with
      | none => exact ih d k h
      | some v =>
        have h' : PyDict.hasKey (d ++ [(ps.1, v)]) k = true := by
          rw [PyDict.hasKey_append, h, Bool.true_or]
        rw [ih _ k h', PyDict.get?_append_left h]

theorem linkPlurals_new_key_src (p : String) (pm : PyDict String) :
    ∀ (d : PyDict (List EmojiEntry)),
      PyDict.hasKey (linkPlurals pm d) p = true →
      PyDict.hasKey d p = true ∨
        ∃ s, (p, s) ∈ pm ∧ PyDict.hasKey (linkPlurals pm d) s = true := by
  induction pm with
  | nil => intro d h; exact Or.inl h
  | cons ps rest ih =>
    intro d h
    rw [linkPlurals_cons] at h ⊢
    by_cases hk : PyDict.hasKey d ps.1 = true
    · rw [if_pos hk] at h ⊢
      rcases ih d h with h' | ⟨s, hs, h2⟩
      · exact Or.inl h'
      · exact Or.inr ⟨s, List.mem_cons_of_mem _ hs, h2⟩
    · rw [if_neg hk] at h ⊢
      revert h
      cases hv : PyDict.get? d ps.2 with
      | none =>
        intro h
        rcases ih d h with h' | ⟨s, hs, h2⟩
        · exact Or.inl h'
        · exact Or.inr ⟨s, List.mem_cons_of_mem _ hs, h2⟩
      | some v =>
        intro h
        rcases ih (d ++ [(ps.1, v)]) h with h' | ⟨s, hs, h2⟩
        · rw [PyDict.hasKey_append, Bool.or_eq_true] at h'
          rcases h' with h'' | h''
          · exact Or.inl h''
          · have hk1 : p = ps.1 := by
              obtain ⟨v', hm⟩ := PyDict.hasKey_iff.1 h''
              have := List.mem_singleton.1 hm
              exact congrArg Prod.fst this
            refine Or.inr ⟨ps.2, ?_, ?_⟩
            · rw [hk1]
              exact List.mem_cons_self ps rest
            · apply linkPlurals_hasKey_mono
              rw [PyDict.hasKey_append]
              have hss : PyDict.hasKey d ps.2 = true := by
                rw [← PyDict.get?_isSome_iff, hv]
                rfl
              rw [hss, Bool.true_or]
        · exact Or.inr ⟨s, List.mem_cons_of_mem _ hs, h2⟩

theorem linkPlurals_fill (p s : String) : ∀ (pm : PyDict String)
    (d : PyDict (List EmojiEntry)),
    (p, s) ∈ pm → (∀ s', (p, s') ∈ pm → s' = s) →
    PyDict.hasKey d p = false → PyDict.hasKey d s = true →
    PyDict.get? (linkPlurals pm d) p = PyDict.get? d s := by
  intro pm
  induction pm with
  | nil => intro d hmem; cases hmem
  | cons ps rest ih =>
    intro d hmem huniq hp hs
    obtain ⟨p1, s1⟩ := ps
    rw [linkPlurals_cons]
    have huniq' : ∀ s', (p, s') ∈ rest → s' = s :=
      fun s' h' => huniq s' (List.mem_cons_of_mem _ h')
    rcases List.mem_cons.1 hmem with heq | hmem'
    · obtain ⟨rfl, rfl⟩ : p = p1 ∧ s = s1 := by
        constructor
        · exact congrArg Prod.fst heq
        · exact congrArg Prod.snd heq
      have hp' : ¬ PyDict.hasKey d p = true := by rw [hp]; exact Bool.noConfusion
      rw [if_neg hp']
      obtain ⟨v, hv⟩ : ∃ v, PyDict.get? d s = some v := by
        have hsome := PyDict.get?_isSome_iff.2 hs
        cases hg : PyDict.get? d s with
        | none => rw [hg] at hsome; cases hsome
        | some v => exact ⟨v, rfl⟩
      rw [hv]
      have hkey : PyDict.hasKey (d ++ [(p, v)]) p = true := by
        rw [PyDict.hasKey_append]
        have : PyDict.hasKey [(p, v)] p = true := by
          simp [PyDict.hasKey]
        rw [this, Bool.or_true]
      rw [linkPlurals_get?_of_hasKey rest _ p hkey, PyDict.get?_append_new hp]
    · by_cases hk : PyDict.hasKey d p1 = true
      · rw [if_pos hk]
        exact ih d hmem' huniq' hp hs
      · rw [if_neg hk]
        revert hp hs
        cases hv : PyDict.get? d s1 with
        | none =>
          intro hp hs
          exact ih d hmem' huniq' hp hs
        | some v =>
          intro hp hs
          by_cases hpp : p1 = p
          · subst hpp
            obtain rfl : s1 = s := huniq s1 (List.mem_cons_self (p1, s1) rest)
            have hkey : PyDict.hasKey (d ++ [(p1, v)]) p1 = true := by
              rw [PyDict.hasKey_append]
              have : PyDict.hasKey [(p1, v)] p1 = true := by
                simp [PyDict.hasKey]
              rw [this, Bool.or_true]
            rw [linkPlurals_get?_of_hasKey rest _ p1 hkey,
              PyDict.get?_append_new hp]
            exact hv.symm
          · have hp' : PyDict.hasKey (d ++ [(p1, v)]) p = false := by
              rw [PyDict.hasKey_append, hp, Bool.false_or]
              simp [PyDict.hasKey, hpp]
            have hs' : PyDict.hasKey (d ++ [(p1, v)]) s = true := by
              rw [PyDict.hasKey_append, hs, Bool.true_or]
            exact (ih (d ++ [(p1, v)]) hmem' huniq' hp' hs').trans
              (PyDict.get?_append_left hs)

theorem map_fst_pydict_set {α : Type} {d : PyDict α} {k : String} {v : α}
    (hk : PyDict.hasKey d k = true) :
    (PyDict.set d k v).map Prod.fst = d.map Prod.fst := by
  unfold PyDict.set
  rw [if_pos hk, List.map_map]
  refine List.map_congr_left ?_
  intro p _
  dsimp only [Function.comp]
  split
  · rfl
  · rfl

theorem pydict_set_nodup_keys {α : Type} {d : PyDict α} {k : String} {v : α}
    (h : (d.map Prod.fst).Nodup) :
    ((PyDict.set d k v).map Prod.fst).Nodup := by
  by_cases hk : PyDict.hasKey d k = true
  · rw [map_fst_pydict_set hk]; exact h
  · unfold PyDict.set
    rw [if_neg hk, List.map_append]
    refine List.Nodup.append h (List.nodup_singleton k) ?_
    intro a ha hb
    obtain rfl : a = k := by simpa using hb
    apply hk
    obtain ⟨p, hp, hfst⟩ := List.mem_map.1 ha
    refine PyDict.hasKey_iff.2 ⟨p.2, ?_⟩
    rw [← hfst]
    exact hp

theorem plurals_keys_nodup_aux (nd : List (String × String)) :
    ∀ d : PyDict String, (d.map Prod.fst).Nodup →
      ((List.foldl
        (fun d p =>
          if p.2 != "isPlural" then PyDict.set d (pyLower p.2) (pyLower p.1)
          else d) d nd).map Prod.fst).Nodup := by
  induction nd with
  | nil => intro d hd; exact hd
  | cons q rest ih =>
    intro d hd
    rw [List.foldl_cons]
    apply ih
    dsimp only
    split
    · exact pydict_set_nodup_keys hd
    · exact hd

theorem plurals_keys_nodup (nd : List (String × String)) :
    ((plurals_to_singulars_dict nd).map Prod.fst).Nodup := by
  unfold plurals_to_singulars_dict
  exact plurals_keys_nodup_aux nd [] (by simp)

theorem nodup_keys_functional {α : Type} {d : PyDict α}
    (h : (d.map Prod.fst).Nodup) {k : String} {v1 v2 : α}
    (h1 : (k, v1) ∈ d) (h2 : (k, v2) ∈ d) : v1 = v2 := by
  induction d with
  | nil => cases h1
  | cons q rest ih =>
    rw [List.map_cons, List.nodup_cons] at h
    rcases List.mem_cons.1 h1 with heq1 | h1'
    · rcases List.mem_cons.1 h2 with heq2 | h2'
      · rw [← heq1] at heq2
        exact (congrArg Prod.snd heq2).symm
      · exfalso
        apply h.1
        rw [← heq1]
        exact List.mem_map.2 ⟨(k, v2), h2', rfl⟩
    · rcases List.mem_cons.1 h2 with heq2 | h2'
      · exfalso
        apply h.1
        rw [← heq2]
        exact List.mem_map.2 ⟨(k, v1), h1', rfl⟩
      · exact ih h.2 h1' h2'

/-- C4: plural linkage only fills gaps.  For any `(plural, singular)` pair of
the plural map derived from the noun data: a plural key that already exists
keeps its binding untouched; a key that appears only after linkage has its
singular present in the linked table (no entry is created for a plural whose
singular is absent); and when the plural is absent and the singular present,
the plural ends up bound to the singular's list. -/
theorem C4_plural_linkage_fills_gaps
    (nd : List (String × String)) (d : PyDict (List EmojiEntry)) (p s : String)
    (hps : (p, s) ∈ plurals_to_singulars_dict nd) :
    (PyDict.hasKey d p = true →
      PyDict.get? (linkPlurals (plurals_to_singulars_dict nd) d) p
        = PyDict.get? d p) ∧
    (PyDict.hasKey (linkPlurals (plurals_to_singulars_dict nd) d) p = true →
      PyDict.hasKey d p = true ∨
        PyDict.hasKey (linkPlurals (plurals_to_singulars_dict nd) d) s = true) ∧
    (PyDict.hasKey d p = false → PyDict.hasKey d s = true →
      PyDict.get? (linkPlurals (plurals_to_singulars_dict nd) d) p
        = PyDict.get? d s) := by
  have hnod := plurals_keys_nodup nd
  have huniq : ∀ s', (p, s') ∈ plurals_to_singulars_dict nd → s' = s :=
    fun s' h' => nodup_keys_functional hnod h' hps
  refine ⟨?_, ?_, ?_⟩
  · intro hp
    exact linkPlurals_get?_of_hasKey _ d p hp
  · intro hres
    rcases linkPlurals_new_key_src p _ d hres with h' | ⟨s', hs', h2⟩
    · exact Or.inl h'
    · obtain rfl : s' = s := huniq s' hs'
      exact Or.inr h2
  · intro hp hs
    exact linkPlurals_fill p s _ d hps huniq hp hs

/-- Witness for C4 on the spec's own example: noun data `Cat ↦ Cats` and a
table containing only `cat`. -/
theorem C4_witness :
    (("cats", "cat") ∈ plurals_to_singulars_dict [("Cat", "Cats")]) ∧
    ((PyDict.hasKey [("cat", [(⟨"😺", false, some 50⟩ : EmojiEntry)])] "cats"
        = true →
      PyDict.get? (linkPlurals (plurals_to_singulars_dict [("Cat", "Cats")])
          [("cat", [⟨"😺", false, some 50⟩])]) "cats"
        = PyDict.get? [("cat", [⟨"😺", false, some 50⟩])] "cats") ∧
    (PyDict.hasKey (linkPlurals (plurals_to_singulars_dict [("Cat", "Cats")])
          [("cat", [(⟨"😺", false, some 50⟩ : EmojiEntry)])]) "cats" = true →
      PyDict.hasKey [("cat", [(⟨"😺", false, some 50⟩ : EmojiEntry)])] "cats"
          = true ∨
        PyDict.hasKey (linkPlurals (plurals_to_singulars_dict [("Cat", "Cats")])
          [("cat", [⟨"😺", false, some 50⟩])]) "cat" = true) ∧
    (PyDict.hasKey [("cat", [(⟨"😺", false, some 50⟩ : EmojiEntry)])] "cats"
        = false →
      PyDict.hasKey [("cat", [(⟨"😺", false, some 50⟩ : EmojiEntry)])] "cat"
        = true →
      PyDict.get? (linkPlurals (plurals_to_singulars_dict [("Cat", "Cats")])
          [("cat", [⟨"😺", false, some 50⟩])]) "cats"
        = PyDict.get? [("cat", [⟨"😺", false, some 50⟩])] "cat")) :=
  ⟨by decide,
    C4_plural_linkage_fills_gaps [("Cat", "Cats")]
      [("cat", [⟨"😺", false, some 50⟩])] "cats" "cat" (by decide)⟩

theorem char_toLower_idem (c : Char) :
    Char.toLower (Char.toLower c) = Char.toLower c := by
  unfold Char.toLower
  by_cases h : c.toNat ≥ 65 ∧ c.toNat ≤ 90
  · rw [if_pos h]
    have hv : (c.toNat + 32).isValidChar := by
      unfold Nat.isValidChar
      omega
    have hval : (Char.ofNat (c.toNat + 32)).toNat = c.toNat + 32 := by
      unfold Char.ofNat
      rw [dif_pos hv]
      rfl
    rw [if_neg (by rw [hval]; omega)]
  · rw [if_neg h, if_neg h]

theorem pyLower_idem (s : String) : pyLower (pyLower s) = pyLower s := by
  unfold pyLower
  apply congrArg String.mk
  show (s.data.map Char.toLower).map Char.toLower = s.data.map Char.toLower
  rw [List.map_map]
  refine List.map_congr_left ?_
  intro a _
  exact char_toLower_idem a

theorem mem_map_fst_iff_hasKey {α : Type} {d : PyDict α} {k : String} :
    k ∈ d.map Prod.fst ↔ PyDict.hasKey d k = true := by
  rw [PyDict.hasKey_iff]
  constructor
  · intro h
    obtain ⟨p, hp, rfl⟩ := List.mem_map.1 h
    exact ⟨p.2, by simpa using hp⟩
  · rintro ⟨v, hv⟩
    exact List.mem_map.2 ⟨(k, v), hv, rfl⟩

theorem setdefaultAppend_keysP {Q : String → Prop}
    {d : PyDict (List EmojiEntry)} {k : String} {e : EmojiEntry}
    (hd : DictKeysP Q d) (hk : Q k) :
    DictKeysP Q (PyDict.setdefaultAppend d k e) := by
  intro k' hmem
  unfold PyDict.setdefaultAppend at hmem
  by_cases hkk : PyDict.hasKey d k = true
  · rw [if_pos hkk, List.map_map] at hmem
    obtain ⟨p, hp, heq⟩ := List.mem_map.1 hmem
    have hfst : p.1 = k' := by
      rw [← heq]
      dsimp only [Function.comp]
      split
      · rfl
      · rfl
    exact hd k' (List.mem_map.2 ⟨p, hp, hfst⟩)
  · rw [if_neg hkk, List.map_append] at hmem
    rcases List.mem_append.1 hmem with h | h
    · exact hd k' h
    · obtain rfl : k' = k := by simpa using h
      exact hk

theorem processCldrChar_keysP {env : UnicodeEnv}
    {pop : String → Option Nat} {ne : Option Nat} {ig : List String}
    {Q : String → Prop} {d : PyDict (List EmojiEntry)} {c : String}
    {defs : List String} (hd : DictKeysP Q d)
    (hadd : ∀ kw, ((pySplit (pyLower kw)).length == 1 &&
      !ig.contains (pyLower kw)) = true → Q (pyLower kw)) :
    DictKeysP Q (processCldrChar env pop ne ig d c defs) := by
  unfold processCldrChar
  dsimp only
  by_cases h1 : ((env.emojiStatus c).isSome && !env.ignoreCode c) = true
  case neg => rw [if_neg h1]; exact hd
  rw [if_pos h1]
  by_cases h2 : (optTruthy ne && rankFails ne (pop c)) = true
  case pos => rw [if_pos h2]; exact hd
  rw [if_neg h2]
  by_cases h3 : (env.hasModifierBase c && decide (c.length > 1)) = true
  case pos => rw [if_pos h3]; exact hd
  rw [if_neg h3]
  by_cases h4 : (env.emojiStatus c == some env.fullyQualified) = true
  case neg => rw [if_neg h4]; exact hd
  rw [if_pos h4]
  refine foldl_inv ?_ defs d hd
  intro d' kw hd'
  dsimp only
  split
  · next h5 => exact setdefaultAppend_keysP hd' (hadd kw h5)
  · exact hd'

theorem processCldrSource_keysP {env : UnicodeEnv}
    {pop : String → Option Nat} {ne : Option Nat} {ig : List String}
    {Q : String → Prop} {d : PyDict (List EmojiEntry)} {src : CldrSource}
    (hd : DictKeysP Q d)
    (hadd : ∀ kw, ((pySplit (pyLower kw)).length == 1 &&
      !ig.contains (pyLower kw)) = true → Q (pyLower kw)) :
    DictKeysP Q (processCldrSource env pop ne ig d src) := by
  unfold processCldrSource
  refine foldl_inv ?_ src d hd
  intro d' p hd'
  exact processCldrChar_keysP hd' hadd

/-- Counterexample to C5 as stated: with `ignore_keywords = "cats"`, a plural
key `"cats"` introduced by noun linkage still appears in the returned table,
because the linkage step never consults the ignore list. -/
theorem C5_counterexample :
    (gen_emoji_lexicon testEnv testPop [("😺", ["cat"])] [] [("Cat", "Cats")]
        none none (.str "cats") true true).keys.contains "cats" = true := by
  decide

/-- C5 amended: for `ignore_keywords = s`, every key of the returned table
either differs from `s` case-insensitively, or was introduced by the
plural-linkage step (which does not consult the ignore list). -/
theorem C5_amended_ignore_not_key
    (env : UnicodeEnv) (pop : String → Option Nat) (a ad : CldrSource)
    (nd : List (String × String)) (ne epk : Option Nat) (s : String)
    (ebr v : Bool) (k : String)
    (hk : k ∈ (gen_emoji_lexicon env pop a ad nd ne epk (.str s) ebr v).keys) :
    pyLower k ≠ pyLower s ∨ ∃ s', (k, s') ∈ plurals_to_singulars_dict nd := by
  rw [gen_keys_eq] at hk
  unfold preSortDict at hk
  rw [mem_map_fst_iff_hasKey] at hk
  rcases linkPlurals_new_key_src k _ _ hk with hraw | ⟨s', hs', _⟩
  · left
    have hQ : DictKeysP (fun k' =>
        (keywordsToIgnore (.str s)).contains k' = false ∧ pyLower k' = k')
        ([a, ad].foldl
          (processCldrSource env pop ne (keywordsToIgnore (.str s))) []) := by
      refine foldl_inv ?_ [a, ad] [] ?_
      · intro d src hd
        refine processCldrSource_keysP hd ?_
        intro kw hcond
        rw [Bool.and_eq_true] at hcond
        refine ⟨?_, pyLower_idem kw⟩
        have h2 := hcond.2
        rw [Bool.not_eq_true'] at h2
        exact h2
      · intro k' hk'
        simp at hk'
    obtain ⟨hcontains, hlow⟩ := hQ k (mem_map_fst_iff_hasKey.2 hraw)
    intro hcontra
    have hks : k = pyLower s := by rw [← hlow, hcontra]
    rw [hks] at hcontains
    unfold keywordsToIgnore at hcontains
    simp at hcontains
  · exact Or.inr ⟨s', hs'⟩

/-- Witness for the amended C5 at the counterexample input: the key `"cats"`
is there because of the plural map. -/
theorem C5_amended_witness :
    ("cats" ∈ (gen_emoji_lexicon testEnv testPop [("😺", ["cat"])] []
        [("Cat", "Cats")] none none (.str "cats") true true).keys) ∧
    (pyLower "cats" ≠ pyLower "cats" ∨
      ∃ s', ("cats", s') ∈ plurals_to_singulars_dict [("Cat", "Cats")]) :=
  ⟨by decide,
    C5_amended_ignore_not_key testEnv testPop [("😺", ["cat"])] []
      [("Cat", "Cats")] none none "cats" true true "cats" (by decide)⟩

/-- C7: the spec's example scenario.  Rank table `{😀 ↦ 1, 😺 ↦ 50}`, one
fully-qualified non-modifier-base character `😀` annotated with default
phrases `["grinning face", "happy"]`, no caps: the output has exactly the key
`"happy"` (the multi-word phrase contributes nothing), mapping to
`[{"emoji": "😀"}]` without `export_base_rank` and to
`[{"emoji": "😀", "is_base": False, "rank": 1}]` with it. -/
theorem C7_example_scenario :
    (gen_emoji_lexicon testEnv testPop [("😀", ["grinning face", "happy"])]
        [] [] none none .other false true
      = Lexicon.emojiOnly [("happy", ["😀"])]) ∧
    ((gen_emoji_lexicon testEnv testPop [("😀", ["grinning face", "happy"])]
        [] [] none none .other false true).keys.contains "grinning" = false) ∧
    ((gen_emoji_lexicon testEnv testPop [("😀", ["grinning face", "happy"])]
        [] [] none none .other false true).keys.contains "face" = false) ∧
    ((gen_emoji_lexicon testEnv testPop [("😀", ["grinning face", "happy"])]
        [] [] none none .other false true).keys.contains "grinning face"
      = false) ∧
    (gen_emoji_lexicon testEnv testPop [("😀", ["grinning face", "happy"])]
        [] [] none none .other true true
      = Lexicon.full [("happy", [⟨"😀", false, some 1⟩])]) := by
  refine ⟨by decide, by decide, by decide, by decide, by decide⟩
